import Mathlib

/-!
Shallow embedding of `src/pitchfuncs.py` and `src/grd/pitchfuncs.py`
(repository `ojscutt/sl-pitchfork`).

Matrices (2-D numpy arrays) are embedded as `List (List ℝ)` (a list of
rows); machine floats are embedded as real numbers, so floating-point
rounding is abstracted away and every arithmetic identity is exact.
The trained neural network (`self.model`) is an opaque function from a
matrix of standardised log-inputs to the pair of output blocks it
returns (classical block, astero block), exactly as the source indexes
`standardised_log_outputs[0]` and `standardised_log_outputs[1]`.

The scaling statistics `emulator_dict["data_scaling"][k][0]` are
embedded as the unwrapped per-dimension vectors (the source's `[0]`
indexing is performed once here); `classical_... + astero_...` is the
Python list concatenation the source performs before `np.array`.
-/

namespace Pitchfork

noncomputable section

/-- Scalar `np.log10` applied to one scalar. -/
def log10 (x : ℝ) : ℝ := Real.logb 10 x

/-- Scalar `10**x` for a scalar exponent (numpy real power). -/
def pow10 (x : ℝ) : ℝ := Real.rpow 10 x

/-- One row of `(log_inputs - log_inputs_mean)/log_inputs_std`
(numpy row-broadcasting of the stats vectors over the matrix). -/
def standardiseRow (row mean std : List ℝ) : List ℝ :=
  List.zipWith (fun v p => (v - p.1) / p.2) row (mean.zip std)

/-- One row of `(standardised_log_outputs*log_outputs_std) + log_outputs_mean`
(numpy row-broadcasting of the stats vectors over the matrix). -/
def destandardiseRow (row mean std : List ℝ) : List ℝ :=
  List.zipWith (fun v p => v * p.2 + p.1) row (mean.zip std)

/-- The emulator state: the scaling statistics loaded from
`emulator_dict["data_scaling"]` (each `[0]`-unwrapped), and the opaque
trained model returning its two output blocks.  Parameter ranges and the
pca/WMSE custom-object parameters play no role in `predict` and are
carried as an opaque metadata field so that frame conditions about the
loaded dictionary are statable. -/
structure Emulator where
  inp_mean : List ℝ
  inp_std : List ℝ
  classical_out_mean : List ℝ
  classical_out_std : List ℝ
  astero_out_mean : List ℝ
  astero_out_std : List ℝ
  /-- remaining contents of `emulator_dict` (parameter ranges, custom objects) -/
  metadata : List (String × List ℝ)
  /-- the deserialised keras model, as the function computed by
  `self.model.predict` / `self.model` on the standardised log-inputs -/
  model : List (List ℝ) → List (List ℝ) × List (List ℝ)

/-- The list `classical_out_mean[0] + astero_out_mean[0]` (Python list concatenation,
line 97 / 105 of the two sources). -/
def Emulator.outMean (em : Emulator) : List ℝ :=
  em.classical_out_mean ++ em.astero_out_mean

/-- The list `classical_out_std[0] + astero_out_std[0]` (Python list concatenation,
line 99 / 107 of the two sources). -/
def Emulator.outStd (em : Emulator) : List ℝ :=
  em.classical_out_std ++ em.astero_out_std

/-- The configured total output dimensionality: the summed lengths of the
classical and astero output scaling-statistic vectors. -/
def Emulator.outDim (em : Emulator) : ℕ :=
  em.classical_out_mean.length + em.astero_out_mean.length

/-- The de-standardised log-outputs: the pipeline both `predict`
implementations share (`src/pitchfuncs.py` lines 101-109,
`src/grd/pitchfuncs.py` lines 109-117): `np.log10` of the input matrix,
standardisation with the input statistics, model inference, columnwise
concatenation (`np.concatenate(..., axis=1)`) of the two output blocks,
and de-standardisation with the concatenated output statistics. -/
def Emulator.logOutputs (em : Emulator) (input_data : List (List ℝ)) :
    List (List ℝ) :=
  let log_inputs := input_data.map (fun row => row.map log10)
  let standardised_log_inputs :=
    log_inputs.map (fun row => standardiseRow row em.inp_mean em.inp_std)
  let blocks := em.model standardised_log_inputs
  let standardised_log_outputs := List.zipWith (· ++ ·) blocks.1 blocks.2
  standardised_log_outputs.map
    (fun row => destandardiseRow row em.outMean em.outStd)

/-- Method `emulator.predict` of `src/pitchfuncs.py` (lines 92-112): the plain
variant, which finishes with `outputs = 10**log_outputs` and returns. -/
def Emulator.predict (em : Emulator) (input_data : List (List ℝ)) :
    List (List ℝ) :=
  (em.logOutputs input_data).map (fun row => row.map pow10)

/-- Constant `scipy.constants.sigma`, the Stefan-Boltzmann constant (W m⁻² K⁻⁴). -/
def sigma_sb : ℝ := 5.670374419e-8

/-- Constant `astropy.constants.L_sun`, the IAU 2015 nominal solar luminosity (W). -/
def L_sun : ℝ := 3.828e26

/-- Constant `astropy.constants.R_sun`, the IAU 2015 nominal solar radius (m). -/
def R_sun : ℝ := 6.957e8

/-- The effective-temperature expression of `src/grd/pitchfuncs.py`
line 127: `((outputs[:,1]*L_sun) / (4*np.pi*sigma*((outputs[:,0]*R_sun)**2)))**0.25`,
applied to one row, with `lum = outputs[:,1]` and `rad = outputs[:,0]`. -/
def teff (lum rad : ℝ) : ℝ :=
  Real.rpow ((lum * L_sun) / (4 * Real.pi * sigma_sb * (rad * R_sun) ^ 2)) 0.25

/-- Method `emulator.predict` of `src/grd/pitchfuncs.py` (lines 99-133): after the
shared pipeline and `outputs = 10**log_outputs`, it overwrites column 2
with the log-output value (`outputs[:,2] = log_outputs[:,2]`, star_feh kept
in dex), overwrites column 0 with the recomputed effective temperature
(`outputs[:,0] = teff`), and returns
`np.concatenate((outputs[:,:3], outputs[:,n_min-3:n_max-2]), axis=1)`.
Python slices clamp to the row length, as `List.drop`/`List.take` do. -/
def Emulator.predictGrd (em : Emulator) (input_data : List (List ℝ))
    (n_min : ℕ := 6) (n_max : ℕ := 40) : List (List ℝ) :=
  let log_outputs := em.logOutputs input_data
  let outputs := log_outputs.map (fun row => row.map pow10)
  let outputs :=
    List.zipWith (fun orow lrow => orow.set 2 (lrow.getD 2 0)) outputs log_outputs
  let outputs :=
    outputs.map (fun row => row.set 0 (teff (row.getD 1 0) (row.getD 0 0)))
  outputs.map
    (fun row => row.take 3 ++ ((row.drop (n_min - 3)).take ((n_max - 2) - (n_min - 3))))

/-- Method `emulator.predict` (plain variant) as a state-passing method: the body
reads `self.emulator_dict` and `self.model` but assigns no attribute of
`self`, so the method returns the outputs together with the object state
it leaves behind. -/
def Emulator.predictS (em : Emulator) (input_data : List (List ℝ)) :
    List (List ℝ) × Emulator :=
  (em.predict input_data, em)

/-- Method `emulator.predict` (src/grd variant) as a state-passing method: the
in-place updates on lines 121 and 129 mutate the local array `outputs`
only, never an attribute of `self`. -/
def Emulator.predictGrdS (em : Emulator) (input_data : List (List ℝ))
    (n_min : ℕ := 6) (n_max : ℕ := 40) : List (List ℝ) × Emulator :=
  (em.predictGrd input_data n_min n_max, em)

/-- A prior distribution as `ns` consumes it: an object exposing `ppf`,
whose result is indexable (`self.priors[i].ppf(u[i])[0]`). -/
structure Prior where
  ppf : ℝ → List ℝ

instance : Inhabited Prior := ⟨⟨fun _ => []⟩⟩

/-- The median of a prior: its inverse-CDF (percent-point function)
evaluated at one half, unwrapped from its one-element result. -/
def Prior.median (p : Prior) : ℝ := (p.ppf 0.5).headI

/-- The orchestrator class `ns` of `src/pitchfuncs.py` (lines 114-133):
priors, observed values, observed uncertainties, and the emulator. -/
structure ns where
  priors : List Prior
  obs_val : List ℝ
  obs_unc : List ℝ
  pitchfork : Emulator

/-- Attribute `self.ndim = len(priors)`. -/
def ns.ndim (o : ns) : ℕ := o.priors.length

/-- Method `ns.ptform` (lines 122-125):
`theta = np.array([self.priors[i].ppf(u[i])[0] for i in range(self.ndim)])`.
For `u` of length `ndim` (the shape the sampler always passes) the loop
pairs `priors[i]` with `u[i]`, embedded as the elementwise zip. -/
def ns.ptform (o : ns) (u : List ℝ) : List ℝ :=
  List.zipWith (fun p ui => (p.ppf ui).headI) o.priors u

/-- Scalar `scipy.stats.norm.logpdf(x, loc, scale)`:
`-((x-loc)/scale)**2/2 - log(scale) - log(sqrt(2*pi))`. -/
def norm_logpdf (x loc scale : ℝ) : ℝ :=
  -(((x - loc) / scale) ^ 2) / 2 - Real.log scale - Real.log (Real.sqrt (2 * Real.pi))

/-- Method `ns.logl` (lines 128-133): runs the emulator on the single-row matrix
`np.array([theta])`, takes the elementwise Gaussian log-density against
`self.obs_val` / `self.obs_unc` (numpy broadcasting pairs each row of `m`
with the observation vectors), and returns `logl_scale*np.sum(ll)` with
`logl_scale` defaulting to `0.001`. -/
def ns.logl (o : ns) (theta : List ℝ) (logl_scale : ℝ := 0.001) : ℝ :=
  let m := o.pitchfork.predict [theta]
  let ll := m.map (fun row =>
    (List.zipWith (fun x p => norm_logpdf x p.1 p.2) row (o.obs_val.zip o.obs_unc)).sum)
  logl_scale * ll.sum

/-- The names bound at module scope in `src/pitchfuncs.py` (its imports
and top-level definitions), each mapped to `none` because none of them is
bound to a numeric weight vector; the module of `src/grd/pitchfuncs.py`
adds only `os`, `constants`, `stats` and `astropy`, likewise non-numeric.
`weights` appears in the sources only as a parameter of `WMSE.__init__`
and as the attribute `self.weights`, never at module scope. -/
def module_scope : List (String × Option (List ℝ)) :=
  [("pickle", none), ("np", none), ("tf", none), ("os", none),
   ("NestedSampler", none), ("dyfunc", none), ("scipy", none),
   ("constants", none), ("stats", none), ("astropy", none),
   ("InversePCA", none), ("WMSE", none), ("WMSE_metric", none),
   ("emulator", none), ("ns", none)]

/-- Function `WMSE_metric` (lines 73-75 / 80-82): the body evaluates the free name
`weights`, which Python resolves at module scope; an unbound name raises
`NameError` before any arithmetic runs, and a name bound to a non-array
object would fail in the division.  Only when module scope bound `weights`
to a numeric vector would `mean(((y_true - y_pred)/weights)**2)` be
returned. -/
def WMSE_metric (y_true y_pred : List ℝ) : Except String ℝ :=
  match module_scope.lookup "weights" with
  | none => Except.error "NameError: name weights is not defined"
  | some none => Except.error "TypeError: unsupported operand"
  | some (some w) =>
      let metric := List.zipWith (fun d wi => (d / wi) ^ 2)
        (List.zipWith (fun t p => t - p) y_true y_pred) w
      Except.ok (metric.sum / metric.length)

/-- One row of the matrix `outputs` of `src/grd/pitchfuncs.py` as it
stands after line 129, as a function of the corresponding row of
`log_outputs`: inverse-log (`10**`), column 2 overwritten by the
log-output (dex) value, column 0 overwritten by the recomputed effective
temperature. -/
def grdRow (lrow : List ℝ) : List ℝ :=
  let o1 := (lrow.map pow10).set 2 (lrow.getD 2 0)
  o1.set 0 (teff (o1.getD 1 0) (o1.getD 0 0))

/-- The matrix `outputs` of `src/grd/pitchfuncs.py` as it stands after
line 129 (all rows). -/
def Emulator.grdPostProcessed (em : Emulator) (input_data : List (List ℝ)) :
    List (List ℝ) :=
  (em.logOutputs input_data).map grdRow

end

/-! ### Helper lemmas shared between the claims -/

theorem predictGrd_eq_map (em : Emulator) (x : List (List ℝ)) (n_min n_max : ℕ) :
    em.predictGrd x n_min n_max =
      (em.grdPostProcessed x).map
        (fun row => row.take 3 ++ ((row.drop (n_min - 3)).take ((n_max - 2) - (n_min - 3)))) := by
  unfold Emulator.predictGrd Emulator.grdPostProcessed
  simp only [List.zipWith_map_left, List.zipWith_same, List.map_map]
  rfl

theorem zip_destand_lengths (em : Emulator) (B : List (List ℝ) × List (List ℝ)) (n : ℕ)
    (hm1 : B.1.length = n) (hm2 : B.2.length = n)
    (hw : ∀ i, i < n →
      (B.1.getD i []).length = em.classical_out_mean.length ∧
      (B.2.getD i []).length = em.astero_out_mean.length)
    (hcs : em.classical_out_std.length = em.classical_out_mean.length)
    (has : em.astero_out_std.length = em.astero_out_mean.length) :
    ((List.zipWith (· ++ ·) B.1 B.2).map
        (fun row => destandardiseRow row em.outMean em.outStd)).length = n ∧
      ∀ i, i < n →
        (((List.zipWith (· ++ ·) B.1 B.2).map
          (fun row => destandardiseRow row em.outMean em.outStd)).getD i []).length
          = em.outDim := by
  have hout : em.outMean.length = em.outDim ∧ em.outStd.length = em.outDim := by
    constructor <;> simp [Emulator.outMean, Emulator.outStd, Emulator.outDim, hcs, has]
  have hzlen : (List.zipWith (· ++ ·) B.1 B.2).length = n := by
    simp [List.length_zipWith, hm1, hm2]
  refine ⟨by simpa using hzlen, ?_⟩
  intro i hi
  have hi' : i < ((List.zipWith (· ++ ·) B.1 B.2).map
      (fun row => destandardiseRow row em.outMean em.outStd)).length := by
    simpa [hzlen] using hi
  rw [List.getD_eq_getElem _ _ hi']
  simp only [List.getElem_map]
  have h1 : i < B.1.length := by omega
  have h2 : i < B.2.length := by omega
  have hw' := hw i hi
  rw [List.getD_eq_getElem _ _ h1, List.getD_eq_getElem _ _ h2] at hw'
  have hcat : (List.zipWith (· ++ ·) B.1 B.2)[i].length = em.outDim := by
    rw [List.getElem_zipWith]
    simp [Emulator.outDim, hw'.1, hw'.2]
  have hdim : em.outDim = em.classical_out_mean.length + em.astero_out_mean.length := rfl
  simp [destandardiseRow, List.length_zip, hcat, hout.1, hout.2]
  omega

theorem logOutputs_row_length (em : Emulator) (x : List (List ℝ))
    (hm1 : ∀ M, (em.model M).1.length = M.length)
    (hm2 : ∀ M, (em.model M).2.length = M.length)
    (hw : ∀ M i, i < M.length →
      ((em.model M).1.getD i []).length = em.classical_out_mean.length ∧
      ((em.model M).2.getD i []).length = em.astero_out_mean.length)
    (hcs : em.classical_out_std.length = em.classical_out_mean.length)
    (has : em.astero_out_std.length = em.astero_out_mean.length) :
    (em.logOutputs x).length = x.length ∧
      ∀ i, i < x.length → ((em.logOutputs x).getD i []).length = em.outDim := by
  have hMlen : ((x.map (fun row => row.map log10)).map
      (fun row => standardiseRow row em.inp_mean em.inp_std)).length = x.length := by
    simp
  exact zip_destand_lengths em (em.model _) x.length (by rw [hm1]; exact hMlen)
    (by rw [hm2]; exact hMlen) (fun i hi => hw _ i (by rw [hMlen]; exact hi)) hcs has

theorem grdRow_length (lrow : List ℝ) : (grdRow lrow).length = lrow.length := by
  simp [grdRow]

theorem grdRow_getD2 (lrow : List ℝ) (h3 : 3 ≤ lrow.length) :
    (grdRow lrow).getD 2 0 = lrow.getD 2 0 := by
  unfold grdRow
  have h2 : 2 < ((lrow.map pow10).set 2 (lrow.getD 2 0)).length := by
    simp; omega
  rw [List.getD_eq_getElem _ _ (by simpa using h2)]
  rw [List.getElem_set_ne (by omega)]
  rw [List.getElem_set_self (by simpa using h2)]

theorem grdRow_getD1 (lrow : List ℝ) (h3 : 3 ≤ lrow.length) :
    (grdRow lrow).getD 1 0 = pow10 (lrow.getD 1 0) := by
  unfold grdRow
  have h1 : 1 < ((lrow.map pow10).set 2 (lrow.getD 2 0)).length := by
    simp; omega
  have h1' : 1 < lrow.length := by omega
  rw [List.getD_eq_getElem _ _ (by simpa using h1)]
  rw [List.getElem_set_ne (by omega), List.getElem_set_ne (by omega),
    List.getElem_map]
  rw [List.getD_eq_getElem _ _ h1']

theorem grdRow_getD0 (lrow : List ℝ) (h3 : 3 ≤ lrow.length) :
    (grdRow lrow).getD 0 0
      = teff (pow10 (lrow.getD 1 0)) (pow10 (lrow.getD 0 0)) := by
  unfold grdRow
  have h0 : 0 < ((lrow.map pow10).set 2 (lrow.getD 2 0)).length := by
    simp; omega
  have h0' : 0 < lrow.length := by omega
  have h1' : 1 < lrow.length := by omega
  rw [List.getD_eq_getElem _ _ (by simpa using h0)]
  rw [List.getElem_set_self (by simpa using h0)]
  have e1 : ((lrow.map pow10).set 2 (lrow.getD 2 0)).getD 1 0
      = pow10 (lrow.getD 1 0) := by
    rw [List.getD_eq_getElem _ _ (by simp; omega : 1 < ((lrow.map pow10).set 2 (lrow.getD 2 0)).length)]
    rw [List.getElem_set_ne (by omega), List.getElem_map]
    rw [List.getD_eq_getElem _ _ h1']
  have e0 : ((lrow.map pow10).set 2 (lrow.getD 2 0)).getD 0 0
      = pow10 (lrow.getD 0 0) := by
    rw [List.getD_eq_getElem _ _ (by simp; omega : 0 < ((lrow.map pow10).set 2 (lrow.getD 2 0)).length)]
    rw [List.getElem_set_ne (by omega), List.getElem_map]
    rw [List.getD_eq_getElem _ _ h0']
  rw [e1, e0]

theorem grdRow_getD_ge3 (lrow : List ℝ) (j : ℕ) (h3 : 3 ≤ j) (hj : j < lrow.length) :
    (grdRow lrow).getD j 0 = pow10 (lrow.getD j 0) := by
  unfold grdRow
  have hjl : j < ((lrow.map pow10).set 2 (lrow.getD 2 0)).length := by
    simp; omega
  rw [List.getD_eq_getElem _ _ (by simpa using hjl)]
  rw [List.getElem_set_ne (by omega), List.getElem_set_ne (by omega),
    List.getElem_map]
  rw [List.getD_eq_getElem _ _ hj]

theorem slice_length (row : List ℝ) (a b : ℕ) :
    (row.take 3 ++ ((row.drop a).take b)).length
      = min 3 row.length + min b (row.length - a) := by
  simp

theorem slice_getD_lt3 (row : List ℝ) (j : ℕ) (hj : j < 3) (hjr : j < row.length) :
    (row.take 3 ++ ((row.drop 3).take 35)).getD j 0 = row.getD j 0 := by
  have hlt : j < (row.take 3).length := by simp; omega
  rw [List.getD_append _ _ _ _ hlt]
  rw [List.getD_eq_getElem _ _ hlt, List.getElem_take, List.getD_eq_getElem _ _ hjr]

theorem slice_getD_ge3 (row : List ℝ) (j : ℕ) (h3r : 3 ≤ row.length)
    (hj : 3 ≤ j) (hjr : j < min row.length 38) :
    (row.take 3 ++ ((row.drop 3).take 35)).getD j 0 = row.getD j 0 := by
  have htl : (row.take 3).length = 3 := by simp; omega
  have hge : (row.take 3).length ≤ j := by omega
  rw [List.getD_append_right _ _ _ _ hge, htl]
  have hjd : j - 3 < ((row.drop 3).take 35).length := by simp; omega
  rw [List.getD_eq_getElem _ _ hjd, List.getElem_take, List.getElem_drop]
  simp only [Nat.add_sub_cancel' hj]
  rw [List.getD_eq_getElem _ _ (by omega)]

/-- C1: for every 2-D input matrix `x`, the plain-variant `predict` of
`src/pitchfuncs.py` returns exactly
`10 ** (concat_cols (model ((log10 x - inp_mean)/inp_std)) * out_std + out_mean)`,
where `out_mean`/`out_std` are the concatenations of the stored classical
and astero output statistics, with no further post-processing. -/
theorem C1_predict_plain_formula (em : Emulator) (x : List (List ℝ)) :
    em.predict x =
      (List.zipWith (· ++ ·)
          (em.model ((x.map (fun row => row.map log10)).map
            (fun row => List.zipWith (fun v p => (v - p.1) / p.2) row
              (em.inp_mean.zip em.inp_std)))).1
          (em.model ((x.map (fun row => row.map log10)).map
            (fun row => List.zipWith (fun v p => (v - p.1) / p.2) row
              (em.inp_mean.zip em.inp_std)))).2).map
        (fun row =>
          (List.zipWith (fun v p => v * p.2 + p.1) row
            ((em.classical_out_mean ++ em.astero_out_mean).zip
              (em.classical_out_std ++ em.astero_out_std))).map pow10) := by
  simp only [Emulator.predict, Emulator.logOutputs, Emulator.outMean,
    Emulator.outStd, standardiseRow, destandardiseRow, List.map_map]
  rfl

/-- C6: round-trip of the scaling pipeline: de-standardising the
standardisation of a vector with the stored per-dimension mean and std
returns the vector exactly (over the real-number embedding), whenever
every std entry is nonzero. -/
theorem C6_roundtrip_scaling (v mean std : List ℝ)
    (hm : mean.length = v.length) (hs : std.length = v.length)
    (hstd : ∀ s ∈ std, s ≠ 0) :
    destandardiseRow (standardiseRow v mean std) mean std = v := by
  induction v generalizing mean std with
  | nil =>
    have : mean = [] := List.eq_nil_of_length_eq_zero hm
    simp [standardiseRow, destandardiseRow, this]
  | cons a t ih =>
    cases mean with
    | nil => simp at hm
    | cons m mt =>
      cases std with
      | nil => simp at hs
      | cons s st =>
        have hs0 : s ≠ 0 := hstd s (by simp)
        have hrec := ih mt st (by simpa using hm) (by simpa using hs)
          (fun q hq => hstd q (by simp [hq]))
        simp only [standardiseRow, destandardiseRow, List.zip_cons_cons,
          List.zipWith_cons_cons] at hrec ⊢
        rw [hrec]
        congr 1
        field_simp

/-- Concrete instantiation of the C6 round-trip theorem. -/
theorem C6_roundtrip_scaling_witness :
    (([1, 2] : List ℝ).length = ([3, 4] : List ℝ).length) ∧
      (([2, 5] : List ℝ).length = ([3, 4] : List ℝ).length) ∧
      (∀ s ∈ ([2, 5] : List ℝ), s ≠ 0) ∧
      destandardiseRow (standardiseRow [3, 4] [1, 2] [2, 5]) [1, 2] [2, 5]
        = [3, 4] :=
  ⟨rfl, rfl, by norm_num,
    C6_roundtrip_scaling [3, 4] [1, 2] [2, 5] rfl rfl (by norm_num)⟩

/-- C8: both `predict` implementations leave the emulator's stored
metadata (scaling statistics, parameter ranges) and model unchanged: as
state-passing methods they return the object state they received, and
their value components are the pure prediction functions. -/
theorem C8_predict_frame (em : Emulator) (x : List (List ℝ)) (n_min n_max : ℕ) :
    (em.predictS x).2 = em ∧ (em.predictGrdS x n_min n_max).2 = em ∧
      (em.predictS x).1 = em.predict x ∧
      (em.predictGrdS x n_min n_max).1 = em.predictGrd x n_min n_max :=
  ⟨rfl, rfl, rfl, rfl⟩

theorem zipWith_ppf_replicate (ps : List Prior) :
    List.zipWith (fun p ui => (p.ppf ui).headI) ps (List.replicate ps.length 0.5)
      = ps.map Prior.median := by
  induction ps with
  | nil => simp
  | cons p t ih => simp [List.replicate_succ, ih, Prior.median]

theorem sum_zipWith3_eq (f : ℝ → ℝ → ℝ → ℝ) :
    ∀ (k : ℕ) (a b c : List ℝ), a.length = k → b.length = k → c.length = k →
      (List.zipWith (fun x p => f x p.1 p.2) a (b.zip c)).sum
        = ∑ i ∈ Finset.range k, f (a.getD i 0) (b.getD i 0) (c.getD i 0) := by
  intro k
  induction k with
  | zero =>
    intro a b c ha hb hc
    rw [List.length_eq_zero] at ha hb hc
    subst ha; subst hb; subst hc
    simp
  | succ n ih =>
    intro a b c ha hb hc
    cases a with
    | nil => simp at ha
    | cons x a2 =>
      cases b with
      | nil => simp at hb
      | cons y b2 =>
        cases c with
        | nil => simp at hc
        | cons z c2 =>
          rw [Finset.sum_range_succ']
          simp only [List.zip_cons_cons, List.zipWith_cons_cons, List.sum_cons,
            List.getD_cons_succ, List.getD_cons_zero]
          rw [ih a2 b2 c2 (by simpa using ha) (by simpa using hb) (by simpa using hc)]
          ring

/-- C4: `ptform` maps the i-th coordinate of a unit-hypercube vector of
length `ndim` through the i-th prior's inverse-CDF, unwrapping the
one-element result; in particular, on the all-`0.5` vector it returns
each prior's median. -/
theorem C4_ptform (o : ns) (u : List ℝ) (hu : u.length = o.ndim) :
    (∀ i, i < o.ndim →
        (o.ptform u).getD i 0 = ((o.priors.getD i default).ppf (u.getD i 0)).headI)
      ∧ o.ptform (List.replicate o.ndim 0.5) = o.priors.map Prior.median := by
  constructor
  · intro i hi
    have hp : i < o.priors.length := hi
    have hu' : i < u.length := by rw [hu]; exact hi
    have hlen : i < (o.ptform u).length := by
      simp only [ns.ptform, List.length_zipWith]
      exact lt_min hp hu'
    rw [List.getD_eq_getElem _ _ hlen]
    simp only [ns.ptform, List.getElem_zipWith]
    rw [List.getD_eq_getElem _ _ hp, List.getD_eq_getElem _ _ hu']
  · exact zipWith_ppf_replicate o.priors

/-- A trivial emulator instance used to instantiate orchestrator claims:
one input statistic, one classical output statistic, no astero outputs,
and a constant model. -/
noncomputable def cEmConst : Emulator :=
  ⟨[0], [1], [0], [1], [], [], [], fun _ => ([[0]], [[]])⟩

/-- A prior whose inverse-CDF doubles its argument (uniform on `[0,2]`). -/
noncomputable def wPrior : Prior := ⟨fun u => [2 * u]⟩

/-- Concrete orchestrator for the C4 witness. -/
noncomputable def wNs4 : ns := ⟨[wPrior], [], [], cEmConst⟩

/-- Concrete instantiation of the C4 `ptform` theorem. -/
theorem C4_ptform_witness :
    (([0.25] : List ℝ).length = wNs4.ndim) ∧
      ((∀ i, i < wNs4.ndim →
          (wNs4.ptform [0.25]).getD i 0
            = ((wNs4.priors.getD i default).ppf (([0.25] : List ℝ).getD i 0)).headI)
        ∧ wNs4.ptform (List.replicate wNs4.ndim 0.5)
            = wNs4.priors.map Prior.median) :=
  ⟨rfl, C4_ptform wNs4 [0.25] rfl⟩

/-- C3: `logl theta` equals the damping factor times the sum over all
output dimensions of the Gaussian log-density of the emulator's
prediction on the single-row matrix `[theta]`, with location the stored
observed values and scale the stored observed uncertainties;
the damping factor defaults to `0.001`. -/
theorem C3_logl_formula (o : ns) (theta row : List ℝ) (k : ℕ) (s : ℝ)
    (hrow : o.pitchfork.predict [theta] = [row])
    (h1 : row.length = k) (h2 : o.obs_val.length = k) (h3 : o.obs_unc.length = k) :
    o.logl theta s = s * ∑ i ∈ Finset.range k,
        norm_logpdf (row.getD i 0) (o.obs_val.getD i 0) (o.obs_unc.getD i 0)
      ∧ o.logl theta = 0.001 * ∑ i ∈ Finset.range k,
        norm_logpdf (row.getD i 0) (o.obs_val.getD i 0) (o.obs_unc.getD i 0) := by
  have base := sum_zipWith3_eq norm_logpdf k row o.obs_val o.obs_unc h1 h2 h3
  constructor <;>
    simp only [ns.logl, hrow, List.map_cons, List.map_nil, List.sum_cons,
      List.sum_nil, add_zero, base]

/-- Concrete orchestrator for the C3 witness. -/
noncomputable def wNs3 : ns := ⟨[], [2], [3], cEmConst⟩

/-- Concrete instantiation of the C3 `logl` theorem. -/
theorem C3_logl_formula_witness :
    (wNs3.pitchfork.predict [[5]] = [[1]]) ∧
      (([1] : List ℝ).length = 1) ∧ (wNs3.obs_val.length = 1) ∧
      (wNs3.obs_unc.length = 1) ∧
      (wNs3.logl [5] 2 = 2 * ∑ i ∈ Finset.range 1,
          norm_logpdf ((([1] : List ℝ)).getD i 0) (wNs3.obs_val.getD i 0)
            (wNs3.obs_unc.getD i 0)
        ∧ wNs3.logl [5] = 0.001 * ∑ i ∈ Finset.range 1,
          norm_logpdf ((([1] : List ℝ)).getD i 0) (wNs3.obs_val.getD i 0)
            (wNs3.obs_unc.getD i 0)) := by
  have hp : wNs3.pitchfork.predict [[5]] = [[1]] := by
    simp [wNs3, cEmConst, Emulator.predict, Emulator.logOutputs,
      Emulator.outMean, Emulator.outStd, standardiseRow, destandardiseRow,
      pow10, Real.rpow_zero]
  exact ⟨hp, rfl, rfl, rfl, C3_logl_formula wNs3 [5] [1] 1 2 hp rfl rfl rfl⟩

theorem logOutputs_mem_length (em : Emulator) (x : List (List ℝ))
    (hm1 : ∀ M, (em.model M).1.length = M.length)
    (hm2 : ∀ M, (em.model M).2.length = M.length)
    (hw : ∀ M i, i < M.length →
      ((em.model M).1.getD i []).length = em.classical_out_mean.length ∧
      ((em.model M).2.getD i []).length = em.astero_out_mean.length)
    (hcs : em.classical_out_std.length = em.classical_out_mean.length)
    (has : em.astero_out_std.length = em.astero_out_mean.length) :
    ∀ lrow ∈ em.logOutputs x, lrow.length = em.outDim := by
  obtain ⟨hL, hR⟩ := logOutputs_row_length em x hm1 hm2 hw hcs has
  intro lrow hl
  obtain ⟨i, hi, hEq⟩ := List.mem_iff_getElem.mp hl
  have := hR i (by rw [← hL]; exact hi)
  rw [List.getD_eq_getElem _ _ hi, hEq] at this
  exact this

theorem predictGrd_row_length (em : Emulator) (x : List (List ℝ))
    (hm1 : ∀ M, (em.model M).1.length = M.length)
    (hm2 : ∀ M, (em.model M).2.length = M.length)
    (hw : ∀ M i, i < M.length →
      ((em.model M).1.getD i []).length = em.classical_out_mean.length ∧
      ((em.model M).2.getD i []).length = em.astero_out_mean.length)
    (hcs : em.classical_out_std.length = em.classical_out_mean.length)
    (has : em.astero_out_std.length = em.astero_out_mean.length) :
    (em.predictGrd x).length = x.length ∧
      ∀ i, i < x.length →
        ((em.predictGrd x).getD i []).length
          = min 3 em.outDim + min 35 (em.outDim - 3) := by
  obtain ⟨hL, hR⟩ := logOutputs_row_length em x hm1 hm2 hw hcs has
  rw [predictGrd_eq_map]
  have hlen : (em.grdPostProcessed x).length = x.length := by
    simp [Emulator.grdPostProcessed, hL]
  refine ⟨by simp [hlen], ?_⟩
  intro i hi
  have hi' : i < ((em.grdPostProcessed x).map
      (fun row => row.take 3 ++ ((row.drop (6 - 3)).take ((40 - 2) - (6 - 3))))).length := by
    simp [hlen]; exact hi
  rw [List.getD_eq_getElem _ _ hi']
  simp only [List.getElem_map]
  have hpi : i < (em.grdPostProcessed x).length := by rw [hlen]; exact hi
  have hrowlen : (em.grdPostProcessed x)[i].length = em.outDim := by
    simp only [Emulator.grdPostProcessed, List.getElem_map, grdRow_length]
    have := hR i hi
    rw [List.getD_eq_getElem _ _ (by rw [hL]; exact hi)] at this
    exact this
  simp only [List.length_append, List.length_take, List.length_drop, hrowlen]

/-- C2 (amended): for every input matrix of the correct column count,
given the model invariants (one output row per input row, block widths
matching the classical/astero statistic lengths, and std vectors as long
as the mean vectors), the plain `predict` returns a matrix with the same
row count and `outDim` columns; the grd `predict` (default windowing
`n_min = 6`, `n_max = 40`) does the same exactly when
`3 ≤ outDim ≤ 38`. -/
theorem C2_predict_shape (em : Emulator) (x : List (List ℝ))
    (hm1 : ∀ M, (em.model M).1.length = M.length)
    (hm2 : ∀ M, (em.model M).2.length = M.length)
    (hw : ∀ M i, i < M.length →
      ((em.model M).1.getD i []).length = em.classical_out_mean.length ∧
      ((em.model M).2.getD i []).length = em.astero_out_mean.length)
    (hcs : em.classical_out_std.length = em.classical_out_mean.length)
    (has : em.astero_out_std.length = em.astero_out_mean.length) :
    ((em.predict x).length = x.length ∧
        ∀ row ∈ em.predict x, row.length = em.outDim)
      ∧ (3 ≤ em.outDim → em.outDim ≤ 38 →
          (em.predictGrd x).length = x.length ∧
            ∀ row ∈ em.predictGrd x, row.length = em.outDim) := by
  have hmem := logOutputs_mem_length em x hm1 hm2 hw hcs has
  obtain ⟨hL, _⟩ := logOutputs_row_length em x hm1 hm2 hw hcs has
  constructor
  · constructor
    · simp [Emulator.predict, hL]
    · intro row hrow
      simp only [Emulator.predict, List.mem_map] at hrow
      obtain ⟨lrow, hl, rfl⟩ := hrow
      simp [hmem lrow hl]
  · intro h3 h38
    obtain ⟨hGL, hGR⟩ := predictGrd_row_length em x hm1 hm2 hw hcs has
    refine ⟨hGL, ?_⟩
    intro row hrow
    obtain ⟨i, hi, hEq⟩ := List.mem_iff_getElem.mp hrow
    have hix : i < x.length := by rw [← hGL]; exact hi
    have := hGR i hix
    rw [List.getD_eq_getElem _ _ hi, hEq] at this
    omega

/-- A concrete emulator with 3 classical and 0 astero output statistics
(`outDim = 3`) whose model emits one classical row of width 3 and one
empty astero row per input row. -/
noncomputable def wEm2 : Emulator :=
  ⟨[0], [1], [0, 0, 0], [1, 1, 1], [], [], [],
    fun M => (M.map (fun _ => [0, 0, 0]), M.map (fun _ => []))⟩

/-- Concrete instantiation of the C2 shape theorem, both variants. -/
theorem C2_predict_shape_witness :
    (∀ M, (wEm2.model M).1.length = M.length) ∧
      (∀ M, (wEm2.model M).2.length = M.length) ∧
      (∀ M i, i < M.length →
        ((wEm2.model M).1.getD i []).length = wEm2.classical_out_mean.length ∧
        ((wEm2.model M).2.getD i []).length = wEm2.astero_out_mean.length) ∧
      (wEm2.classical_out_std.length = wEm2.classical_out_mean.length) ∧
      (wEm2.astero_out_std.length = wEm2.astero_out_mean.length) ∧
      ((wEm2.predict [[1]]).length = 1 ∧
        ∀ row ∈ wEm2.predict [[1]], row.length = wEm2.outDim) ∧
      ((wEm2.predictGrd [[1]]).length = 1 ∧
        ∀ row ∈ wEm2.predictGrd [[1]], row.length = wEm2.outDim) := by
  have hm1 : ∀ M, (wEm2.model M).1.length = M.length := by intro M; simp [wEm2]
  have hm2 : ∀ M, (wEm2.model M).2.length = M.length := by intro M; simp [wEm2]
  have hw : ∀ M i, i < M.length →
      ((wEm2.model M).1.getD i []).length = wEm2.classical_out_mean.length ∧
      ((wEm2.model M).2.getD i []).length = wEm2.astero_out_mean.length := by
    intro M i hi
    constructor <;>
      · simp only [wEm2]
        rw [List.getD_eq_getElem _ _ (by simpa using hi), List.getElem_map]
  have h := C2_predict_shape wEm2 [[1]] hm1 hm2 hw rfl rfl
  exact ⟨hm1, hm2, hw, rfl, rfl, h.1, h.2 (by norm_num [wEm2, Emulator.outDim])
    (by norm_num [wEm2, Emulator.outDim])⟩

/-- A concrete emulator with 3 classical and 36 astero output statistics
(`outDim = 39`, exceeding the grd windowing bound of 38). -/
noncomputable def cEmWide : Emulator :=
  ⟨[0], [1], [0, 0, 0], [1, 1, 1], List.replicate 36 0, List.replicate 36 1, [],
    fun M => (M.map (fun _ => [0, 0, 0]),
      M.map (fun _ => List.replicate 36 (0 : ℝ)))⟩

/-- C2 as frozen is false for the grd implementation: with 39 configured
output statistics and defaults `n_min = 6`, `n_max = 40`, the grd
`predict` returns rows of 38 columns, not 39. -/
theorem C2_counterexample :
    cEmWide.outDim = 39 ∧ (cEmWide.predictGrd [[1]]).length = 1 ∧
      ¬ ∀ row ∈ cEmWide.predictGrd [[1]], row.length = cEmWide.outDim := by
  have hm1 : ∀ M, (cEmWide.model M).1.length = M.length := by intro M; simp [cEmWide]
  have hm2 : ∀ M, (cEmWide.model M).2.length = M.length := by intro M; simp [cEmWide]
  have hw : ∀ M i, i < M.length →
      ((cEmWide.model M).1.getD i []).length = cEmWide.classical_out_mean.length ∧
      ((cEmWide.model M).2.getD i []).length = cEmWide.astero_out_mean.length := by
    intro M i hi
    constructor <;>
      · simp only [cEmWide]
        rw [List.getD_eq_getElem _ _ (by simpa using hi), List.getElem_map]
  have hdim : cEmWide.outDim = 39 := by simp [cEmWide, Emulator.outDim]
  obtain ⟨hGL, hGR⟩ := predictGrd_row_length cEmWide [[1]] hm1 hm2 hw rfl
    (by simp [cEmWide])
  refine ⟨hdim, by simpa using hGL, ?_⟩
  intro hall
  have h0 := hGR 0 (by norm_num)
  have hmem : (cEmWide.predictGrd [[1]]).getD 0 [] ∈ cEmWide.predictGrd [[1]] := by
    rw [List.getD_eq_getElem _ _ (by rw [hGL]; norm_num)]
    exact List.getElem_mem _
  have := hall _ hmem
  rw [h0, hdim] at this
  norm_num at this

theorem getD_pos_lt_length {α : Type} [Inhabited α] (l : List (List α)) (i : ℕ)
    (h : 3 ≤ (l.getD i []).length) : i < l.length := by
  by_contra hc
  push_neg at hc
  rw [List.getD_eq_default _ _ hc] at h
  simp at h

theorem predictGrd_getD_eq (em : Emulator) (x : List (List ℝ)) (i : ℕ)
    (hi : i < (em.logOutputs x).length) :
    (em.predictGrd x).getD i []
      = (grdRow ((em.logOutputs x).getD i [])).take 3
        ++ (((grdRow ((em.logOutputs x).getD i [])).drop 3).take 35) := by
  rw [predictGrd_eq_map]
  have hi' : i < ((em.grdPostProcessed x).map
      (fun row => row.take 3 ++ ((row.drop (6 - 3)).take ((40 - 2) - (6 - 3))))).length := by
    simpa [Emulator.grdPostProcessed] using hi
  rw [List.getD_eq_getElem _ _ hi', List.getElem_map]
  simp only [Emulator.grdPostProcessed, List.getElem_map]
  rw [← List.getD_eq_getElem _ ([] : List ℝ) hi]

/-- C9: in the grd variant of `predict` (default windowing), the returned
column 2 is the de-standardised log-output (dex) value, not inverse-logged,
while the returned column 1 and every returned column of index at least 3
equal `10 **` the corresponding log-output. -/
theorem C9_grd_feh_dex (em : Emulator) (x : List (List ℝ)) (i : ℕ)
    (h3 : 3 ≤ ((em.logOutputs x).getD i []).length) :
    (((em.predictGrd x).getD i []).getD 2 0
        = ((em.logOutputs x).getD i []).getD 2 0)
      ∧ (((em.predictGrd x).getD i []).getD 1 0
        = pow10 (((em.logOutputs x).getD i []).getD 1 0))
      ∧ ∀ j, 3 ≤ j → j < min ((em.logOutputs x).getD i []).length 38 →
        ((em.predictGrd x).getD i []).getD j 0
          = pow10 (((em.logOutputs x).getD i []).getD j 0) := by
  have hi : i < (em.logOutputs x).length := getD_pos_lt_length _ _ h3
  rw [predictGrd_getD_eq em x i hi]
  have hlen : 3 ≤ (grdRow ((em.logOutputs x).getD i [])).length := by
    rw [grdRow_length]; exact h3
  refine ⟨?_, ?_, ?_⟩
  · rw [slice_getD_lt3 _ 2 (by norm_num) (by omega)]
    exact grdRow_getD2 _ h3
  · rw [slice_getD_lt3 _ 1 (by norm_num) (by omega)]
    exact grdRow_getD1 _ h3
  · intro j hj hjr
    rw [slice_getD_ge3 _ j hlen hj (by rw [grdRow_length]; exact hjr)]
    exact grdRow_getD_ge3 _ j hj (by omega)

/-- Concrete instantiation of the C9 dex/inverse-log theorem. -/
theorem C9_grd_feh_dex_witness :
    (3 ≤ ((cEmWide.logOutputs [[1]]).getD 0 []).length) ∧
      ((((cEmWide.predictGrd [[1]]).getD 0 []).getD 2 0
          = ((cEmWide.logOutputs [[1]]).getD 0 []).getD 2 0)
        ∧ ((((cEmWide.predictGrd [[1]]).getD 0 []).getD 1 0)
          = pow10 (((cEmWide.logOutputs [[1]]).getD 0 []).getD 1 0))
        ∧ ∀ j, 3 ≤ j → j < min ((cEmWide.logOutputs [[1]]).getD 0 []).length 38 →
          ((cEmWide.predictGrd [[1]]).getD 0 []).getD j 0
            = pow10 (((cEmWide.logOutputs [[1]]).getD 0 []).getD j 0)) := by
  have hm1 : ∀ M, (cEmWide.model M).1.length = M.length := by intro M; simp [cEmWide]
  have hm2 : ∀ M, (cEmWide.model M).2.length = M.length := by intro M; simp [cEmWide]
  have hw : ∀ M i, i < M.length →
      ((cEmWide.model M).1.getD i []).length = cEmWide.classical_out_mean.length ∧
      ((cEmWide.model M).2.getD i []).length = cEmWide.astero_out_mean.length := by
    intro M i hi
    constructor <;>
      · simp only [cEmWide]
        rw [List.getD_eq_getElem _ _ (by simpa using hi), List.getElem_map]
  obtain ⟨hL, hR⟩ := logOutputs_row_length cEmWide [[1]] hm1 hm2 hw rfl
    (by simp [cEmWide])
  have h3 : 3 ≤ ((cEmWide.logOutputs [[1]]).getD 0 []).length := by
    rw [hR 0 (by norm_num)]
    simp [cEmWide, Emulator.outDim]
  exact ⟨h3, C9_grd_feh_dex cEmWide [[1]] 0 h3⟩

/-- C5: in the grd variant, the first returned column is the effective
temperature recomputed by the Stefan-Boltzmann relation from the
de-standardised luminosity (column 1) and radius (column 0), and the
returned matrix is the columnwise concatenation of the first three
post-processed columns with the slice of columns from `n_min - 3` up to
(excluding) `n_max - 2`; the defaults are `n_min = 6`, `n_max = 40`. -/
theorem C5_grd_teff_window (em : Emulator) (x : List (List ℝ)) (i : ℕ)
    (n_min n_max : ℕ)
    (h3 : 3 ≤ ((em.logOutputs x).getD i []).length) :
    (((em.predictGrd x).getD i []).getD 0 0
        = Real.rpow ((((em.predict x).getD i []).getD 1 0 * L_sun)
            / (4 * Real.pi * sigma_sb
              * (((em.predict x).getD i []).getD 0 0 * R_sun) ^ 2)) 0.25)
      ∧ em.predictGrd x n_min n_max
        = (em.grdPostProcessed x).map
            (fun row => row.take 3
              ++ ((row.drop (n_min - 3)).take ((n_max - 2) - (n_min - 3))))
      ∧ em.predictGrd x = em.predictGrd x 6 40 := by
  have hi : i < (em.logOutputs x).length := getD_pos_lt_length _ _ h3
  refine ⟨?_, predictGrd_eq_map em x n_min n_max, rfl⟩
  rw [predictGrd_getD_eq em x i hi]
  have hlen : 3 ≤ (grdRow ((em.logOutputs x).getD i [])).length := by
    rw [grdRow_length]; exact h3
  rw [slice_getD_lt3 _ 0 (by norm_num) (by omega)]
  rw [grdRow_getD0 _ h3]
  have hpi : i < ((em.logOutputs x).map (fun row => row.map pow10)).length := by
    simpa using hi
  have hpred : (em.predict x).getD i []
      = ((em.logOutputs x).getD i []).map pow10 := by
    show ((em.logOutputs x).map (fun row => row.map pow10)).getD i [] = _
    rw [List.getD_eq_getElem _ _ hpi, List.getElem_map,
      ← List.getD_eq_getElem _ ([] : List ℝ) hi]
  rw [hpred]
  have e1 : (((em.logOutputs x).getD i []).map pow10).getD 1 0
      = pow10 (((em.logOutputs x).getD i []).getD 1 0) := by
    rw [List.getD_eq_getElem _ _
        (by simpa using (by omega : 1 < ((em.logOutputs x).getD i []).length)),
      List.getElem_map, ← List.getD_eq_getElem _ (0 : ℝ) (by omega)]
  have e0 : (((em.logOutputs x).getD i []).map pow10).getD 0 0
      = pow10 (((em.logOutputs x).getD i []).getD 0 0) := by
    rw [List.getD_eq_getElem _ _
        (by simpa using (by omega : 0 < ((em.logOutputs x).getD i []).length)),
      List.getElem_map, ← List.getD_eq_getElem _ (0 : ℝ) (by omega)]
  rw [e1, e0]
  rfl

/-- Concrete instantiation of the C5 temperature/windowing theorem. -/
theorem C5_grd_teff_window_witness :
    (3 ≤ ((wEm2.logOutputs [[1]]).getD 0 []).length) ∧
      ((((wEm2.predictGrd [[1]]).getD 0 []).getD 0 0
          = Real.rpow ((((wEm2.predict [[1]]).getD 0 []).getD 1 0 * L_sun)
              / (4 * Real.pi * sigma_sb
                * (((wEm2.predict [[1]]).getD 0 []).getD 0 0 * R_sun) ^ 2)) 0.25)
        ∧ wEm2.predictGrd [[1]] 7 20
          = (wEm2.grdPostProcessed [[1]]).map
              (fun row => row.take 3
                ++ ((row.drop (7 - 3)).take ((20 - 2) - (7 - 3))))
        ∧ wEm2.predictGrd [[1]] = wEm2.predictGrd [[1]] 6 40) := by
  have hm1 : ∀ M, (wEm2.model M).1.length = M.length := by intro M; simp [wEm2]
  have hm2 : ∀ M, (wEm2.model M).2.length = M.length := by intro M; simp [wEm2]
  have hw : ∀ M i, i < M.length →
      ((wEm2.model M).1.getD i []).length = wEm2.classical_out_mean.length ∧
      ((wEm2.model M).2.getD i []).length = wEm2.astero_out_mean.length := by
    intro M i hi
    constructor <;>
      · simp only [wEm2]
        rw [List.getD_eq_getElem _ _ (by simpa using hi), List.getElem_map]
  obtain ⟨hL, hR⟩ := logOutputs_row_length wEm2 [[1]] hm1 hm2 hw rfl rfl
  have h3 : 3 ≤ ((wEm2.logOutputs [[1]]).getD 0 []).length := by
    rw [hR 0 (by norm_num)]
    simp [wEm2, Emulator.outDim]
  exact ⟨h3, C5_grd_teff_window wEm2 [[1]] 0 7 20 h3⟩

/-- C7: with strictly positive stored uncertainties and an attainable
perfect fit, `logl` (with its default positive damping factor) attains
its maximum at `theta` exactly when the emulator's predicted outputs for
`theta` equal the stored observed values in every compared dimension. -/
theorem C7_logl_maximizer (o : ns) (pred : List ℝ → List ℝ) (k : ℕ)
    (hpred : ∀ t, o.pitchfork.predict [t] = [pred t])
    (hlen : ∀ t, (pred t).length = k)
    (h2 : o.obs_val.length = k) (h3 : o.obs_unc.length = k)
    (hpos : ∀ s ∈ o.obs_unc, 0 < s)
    (hstar : ∃ ts, pred ts = o.obs_val)
    (theta : List ℝ) :
    (∀ t2, o.logl t2 ≤ o.logl theta) ↔ pred theta = o.obs_val := by
  have hsum : ∀ t2, o.logl t2 = 0.001 * ∑ i ∈ Finset.range k,
      norm_logpdf ((pred t2).getD i 0) (o.obs_val.getD i 0) (o.obs_unc.getD i 0) := by
    intro t2
    have base := sum_zipWith3_eq norm_logpdf k (pred t2) o.obs_val o.obs_unc
      (hlen t2) h2 h3
    simp only [ns.logl, hpred t2, List.map_cons, List.map_nil, List.sum_cons,
      List.sum_nil, add_zero, base]
  have expand : ∀ t2, (∑ i ∈ Finset.range k,
        norm_logpdf ((pred t2).getD i 0) (o.obs_val.getD i 0) (o.obs_unc.getD i 0))
      = (∑ i ∈ Finset.range k,
          (((pred t2).getD i 0 - o.obs_val.getD i 0) / o.obs_unc.getD i 0) ^ 2)
            * (-(1 / 2))
        - ∑ i ∈ Finset.range k,
            (Real.log (o.obs_unc.getD i 0) + Real.log (Real.sqrt (2 * Real.pi))) := by
    intro t2
    have hpt : ∀ i ∈ Finset.range k,
        norm_logpdf ((pred t2).getD i 0) (o.obs_val.getD i 0) (o.obs_unc.getD i 0)
          = (((pred t2).getD i 0 - o.obs_val.getD i 0) / o.obs_unc.getD i 0) ^ 2
              * (-(1 / 2))
            - (Real.log (o.obs_unc.getD i 0) + Real.log (Real.sqrt (2 * Real.pi))) :=
      fun i _ => by unfold norm_logpdf; ring
    rw [Finset.sum_congr rfl hpt, Finset.sum_sub_distrib, ← Finset.sum_mul]
  have key : ∀ ta tb, o.logl ta ≤ o.logl tb ↔
      (∑ i ∈ Finset.range k,
          (((pred tb).getD i 0 - o.obs_val.getD i 0) / o.obs_unc.getD i 0) ^ 2)
        ≤ ∑ i ∈ Finset.range k,
          (((pred ta).getD i 0 - o.obs_val.getD i 0) / o.obs_unc.getD i 0) ^ 2 := by
    intro ta tb
    rw [hsum ta, hsum tb, expand ta, expand tb]
    constructor
    · intro h; nlinarith [h]
    · intro h; nlinarith [h]
  have hS_nonneg : ∀ t2, (0 : ℝ) ≤ ∑ i ∈ Finset.range k,
      (((pred t2).getD i 0 - o.obs_val.getD i 0) / o.obs_unc.getD i 0) ^ 2 :=
    fun t2 => Finset.sum_nonneg (fun i _ => by positivity)
  have hSzero : ∀ t2, (∑ i ∈ Finset.range k,
        (((pred t2).getD i 0 - o.obs_val.getD i 0) / o.obs_unc.getD i 0) ^ 2) = 0
      ↔ pred t2 = o.obs_val := by
    intro t2
    rw [Finset.sum_eq_zero_iff_of_nonneg (fun i _ => by positivity)]
    constructor
    · intro hz
      apply List.ext_getElem (by rw [hlen t2, h2])
      intro i hi1 hi2
      have hik : i < k := by rw [hlen t2] at hi1; exact hi1
      have hterm := hz i (Finset.mem_range.mpr hik)
      have hiu : i < o.obs_unc.length := by omega
      have hσ : 0 < o.obs_unc.getD i 0 := by
        rw [List.getD_eq_getElem _ _ hiu]
        exact hpos _ (List.getElem_mem _)
      have hdiv : ((pred t2).getD i 0 - o.obs_val.getD i 0) / o.obs_unc.getD i 0
          = 0 := by
        exact pow_eq_zero_iff (n := 2) (by norm_num) |>.mp hterm
      have hnum : (pred t2).getD i 0 - o.obs_val.getD i 0 = 0 := by
        rcases div_eq_zero_iff.mp hdiv with h | h
        · exact h
        · exact absurd h (ne_of_gt hσ)
      have heq : (pred t2).getD i 0 = o.obs_val.getD i 0 := by linarith
      rw [List.getD_eq_getElem _ _ hi1, List.getD_eq_getElem _ _ hi2] at heq
      exact heq
    · intro he i _
      rw [he]
      simp
  obtain ⟨ts, hts⟩ := hstar
  constructor
  · intro hmax
    have h1 := (key ts theta).mp (hmax ts)
    have hz : (∑ i ∈ Finset.range k,
        (((pred ts).getD i 0 - o.obs_val.getD i 0) / o.obs_unc.getD i 0) ^ 2) = 0 :=
      (hSzero ts).mpr hts
    have hz2 : (∑ i ∈ Finset.range k,
        (((pred theta).getD i 0 - o.obs_val.getD i 0) / o.obs_unc.getD i 0) ^ 2)
          = 0 :=
      le_antisymm (by rw [hz] at h1; exact h1) (hS_nonneg theta)
    exact (hSzero theta).mp hz2
  · intro hpe t2
    refine (key t2 theta).mpr ?_
    rw [(hSzero theta).mpr hpe]
    exact hS_nonneg t2

/-- Concrete orchestrator for the C7 witness: a constant emulator that
predicts `[[1]]` for every parameter vector, with observation `1` and
uncertainty `1`. -/
noncomputable def wNs7 : ns := ⟨[], [1], [1], cEmConst⟩

/-- Concrete instantiation of the C7 maximizer theorem. -/
theorem C7_logl_maximizer_witness :
    (∀ t, wNs7.pitchfork.predict [t] = [(fun _ : List ℝ => ([1] : List ℝ)) t]) ∧
      (∀ t : List ℝ, ((fun _ : List ℝ => ([1] : List ℝ)) t).length = 1) ∧
      (wNs7.obs_val.length = 1) ∧ (wNs7.obs_unc.length = 1) ∧
      (∀ s ∈ wNs7.obs_unc, 0 < s) ∧
      (∃ ts, (fun _ : List ℝ => ([1] : List ℝ)) ts = wNs7.obs_val) ∧
      ((∀ t2, wNs7.logl t2 ≤ wNs7.logl [3])
        ↔ (fun _ : List ℝ => ([1] : List ℝ)) [3] = wNs7.obs_val) := by
  have hpred : ∀ t, wNs7.pitchfork.predict [t]
      = [(fun _ : List ℝ => ([1] : List ℝ)) t] := by
    intro t
    simp [wNs7, cEmConst, Emulator.predict, Emulator.logOutputs,
      Emulator.outMean, Emulator.outStd, standardiseRow, destandardiseRow,
      pow10, Real.rpow_zero]
  have hpos : ∀ s ∈ wNs7.obs_unc, 0 < s := by norm_num [wNs7]
  have hstar : ∃ ts, (fun _ : List ℝ => ([1] : List ℝ)) ts = wNs7.obs_val :=
    ⟨[], rfl⟩
  exact ⟨hpred, fun _ => rfl, rfl, rfl, hpos, hstar,
    C7_logl_maximizer wNs7 (fun _ => [1]) 1 hpred (fun _ => rfl) rfl rfl hpos
      hstar [3]⟩

/-- C10: `WMSE_metric` evaluates the free name `weights`, which is bound
neither as a parameter nor at module scope, so every call raises
`NameError` and no value is ever returned. -/
theorem C10_WMSE_metric_NameError (y_true y_pred : List ℝ) :
    WMSE_metric y_true y_pred
      = Except.error "NameError: name weights is not defined" := rfl

end Pitchfork
